import Mathlib

set_option maxRecDepth 100000

/-!
Verification development for the two scripts of this repository:
`src/chat.py` (TF-IDF retrieval QA) and `src/notes_summarizer.py`
(video → audio → transcript → summary pipeline).

The Python code is embedded shallowly: Python strings are Lean `String`s
(in this toolchain a `String` is a structure holding a `List Char`, so
`String.length` counts characters exactly like Python's `len`), Python
lists are Lean `List`s, integers are `Nat`/`Int`/`Rat`, and the external
collaborators (whisper, BART, moviepy) are abstract parameters.
-/

/-! ## Python string primitives -/

/-- Python `str.split()` with no argument: split on runs of whitespace,
discarding empty pieces.  `acc` holds the characters of the current word
in reverse order. -/
def pySplitAux : List Char → List Char → List String
  | [], acc => if acc.isEmpty then [] else [String.mk acc.reverse]
  | c :: cs, acc =>
      if c.isWhitespace then
        if acc.isEmpty then pySplitAux cs []
        else String.mk acc.reverse :: pySplitAux cs []
      else pySplitAux cs (c :: acc)

/-- Python `text.split()` (no separator). -/
def pySplitWs (s : String) : List String := pySplitAux s.data []

/-- Python `" ".join(ws)`. -/
def joinWords : List String → String
  | [] => ""
  | [w] => w
  | w :: ws => w ++ " " ++ joinWords ws

/-- Python `str.strip()` on a character list: drop whitespace from both ends. -/
def pyStripL (l : List Char) : List Char :=
  ((l.dropWhile Char.isWhitespace).reverse.dropWhile Char.isWhitespace).reverse

/-- Python `s.strip()`. -/
def pyStrip (s : String) : String := String.mk (pyStripL s.data)

/-! ## Chunking step of `OfflineNotesSummarizer.summarize`
(src/notes_summarizer.py lines 67–83) -/

/-- `max_chunk_length` in `summarize`. -/
def maxChunkLength : Nat := 1024

/-- The `for word in words` loop of `summarize`: the word is appended to
`current_chunk` first, `current_length` is increased by `len(word) + 1`,
and the chunk is flushed when `current_length >= max_chunk_length`.
The trailing `if current_chunk:` flushes the final partial chunk. -/
def chunkLoop : List String → List String → Nat → List (List String)
  | [], cur, _ => if cur.isEmpty then [] else [cur]
  | w :: ws, cur, len =>
      if maxChunkLength ≤ len + w.length + 1 then
        (cur ++ [w]) :: chunkLoop ws [] 0
      else chunkLoop ws (cur ++ [w]) (len + w.length + 1)

/-- The word groups underlying the `chunks` list of `summarize`. -/
def chunkGroups (ws : List String) : List (List String) := chunkLoop ws [] 0

/-- The `chunks` list built by `summarize` from the transcript `text`:
each group of words is joined with `" ".join(current_chunk)`. -/
def summarizeChunks (text : String) : List String :=
  (chunkGroups (pySplitWs text)).map joinWords

/-- The `for i, chunk in enumerate(chunks)` loop of `summarize`:
a chunk is sent to the summarization model (abstracted as `model`) and
contributes one summary string exactly when `len(chunk.split()) > 50`. -/
def summarizeLoop (model : String → String) : List String → List String
  | [] => []
  | c :: cs =>
      if 50 < (pySplitWs c).length then model c :: summarizeLoop model cs
      else summarizeLoop model cs

/-! ## `format_bullet_points` (src/notes_summarizer.py lines 104–114) -/

/-- Python `s.replace('. ', '.|')`: left-to-right, non-overlapping. -/
def replaceDotSp : List Char → List Char
  | '.' :: ' ' :: rest => '.' :: '|' :: replaceDotSp rest
  | c :: rest => c :: replaceDotSp rest
  | [] => []

/-- Python `s.split('|')`: split at every `'|'`, keeping empty pieces. -/
def splitBar : List Char → List (List Char)
  | [] => [[]]
  | c :: cs =>
      if c = '|' then [] :: splitBar cs
      else
        match splitBar cs with
        | [] => [[c]]
        | p :: ps => (c :: p) :: ps

/-- The `bullet_points` list of `format_bullet_points`: each summary is
split on `'. ' → '.|'` then `'|'`; each fragment is stripped and kept,
with a `"• "` prefix added, exactly when its length exceeds 15. -/
def bulletPointsList (summaries : List String) : List String :=
  summaries.flatMap (fun s =>
    (splitBar (replaceDotSp s.data)).filterMap (fun frag =>
      if 15 < (String.mk (pyStripL frag)).length
      then some ("• " ++ String.mk (pyStripL frag)) else none))

/-- Python `"\n".join(l)`. -/
def joinNl : List String → String
  | [] => ""
  | [x] => x
  | x :: xs => x ++ "\n" ++ joinNl xs

/-- `OfflineNotesSummarizer.format_bullet_points`. -/
def format_bullet_points (summaries : List String) : String :=
  joinNl (bulletPointsList summaries)

/-- `OfflineNotesSummarizer.summarize`, with the summarization pipeline
call abstracted as `model` (it is deterministic: `do_sample=False`). -/
def summarize (model : String → String) (text : String) : String :=
  format_bullet_points (summarizeLoop model (summarizeChunks text))

/-! ## `split_into_sentences` (src/chat.py lines 10–15)

`re.split(r'\\n|•|- |\\*|\\d+\\)', text)` is embedded by a left-to-right
scan.  Four alternatives are fixed strings; the fifth, `\\d+\\)`, matches
one or more digits followed by `)` (so it matches at some position
exactly when a digit stands immediately before a `)`).  The scanner
below carries the pending digit run in `run` (reversed): while `run` is
non-empty a `)` completes the `\\d+\\)` delimiter; any other non-digit
character abandons the run, returning its digits to the current piece.
`acc` holds the current piece before the run, reversed.  Empty pieces
are kept, as `re.split` keeps them. -/

/-- Is `c` one of the single-character delimiters `\\n`, `•`, `\\*`? -/
def isSingleDelim (c : Char) : Bool := c = '\n' || c = '•' || c = '*'

/-- The scan of `re.split(r'\\n|•|- |\\*|\\d+\\)', ·)`.  `run` is the
pending partial match, reversed: `['-']` after a dash (waiting for the
space of `- `), or a non-empty list of digits (waiting for the `)` of
`\\d+\\)`); `acc` is the current piece before the pending run, reversed.
A character that kills the pending run returns the run's characters to
the piece and is then handled as at a fresh position. -/
def reSplitGo : List Char → List Char → List Char → List String
  | [], run, acc => [String.mk ((run ++ acc).reverse)]
  | c :: cs, run, acc =>
      if run.head? = some '-' then
        if c = ' ' then String.mk acc.reverse :: reSplitGo cs [] []
        else if isSingleDelim c then String.mk (run ++ acc).reverse :: reSplitGo cs [] []
        else if c = '-' then reSplitGo cs ['-'] (run ++ acc)
        else if c.isDigit then reSplitGo cs [c] (run ++ acc)
        else reSplitGo cs [] (c :: (run ++ acc))
      else if run.isEmpty then
        if isSingleDelim c then String.mk acc.reverse :: reSplitGo cs [] []
        else if c = '-' then reSplitGo cs ['-'] acc
        else if c.isDigit then reSplitGo cs [c] acc
        else reSplitGo cs [] (c :: acc)
      else
        if c = ')' then String.mk acc.reverse :: reSplitGo cs [] []
        else if c.isDigit then reSplitGo cs (c :: run) acc
        else if isSingleDelim c then String.mk (run ++ acc).reverse :: reSplitGo cs [] []
        else if c = '-' then reSplitGo cs ['-'] (run ++ acc)
        else reSplitGo cs [] (c :: (run ++ acc))

/-- `re.split(r'\\n|•|- |\\*|\\d+\\)', text)`. -/
def pyReSplit (text : String) : List String := reSplitGo text.data [] []

/-- `split_into_sentences` of src/chat.py: regex-split, strip each piece,
keep the non-empty ones. -/
def split_into_sentences (text : String) : List String :=
  ((pyReSplit text).map pyStrip).filter (fun s => s ≠ "")

/-- `true` when two adjacent characters form the delimiter `- ` or a
digit immediately followed by `)` (the condition under which `\\d+\\)`
matches somewhere). -/
def hasDelimPair : List Char → Bool
  | c :: d :: rest =>
      (c = '-' && d = ' ') || (c.isDigit && d = ')') || hasDelimPair (d :: rest)
  | _ => false

/-- `true` iff some alternative of the split regex matches somewhere. -/
def containsDelim (cs : List Char) : Bool :=
  cs.any isSingleDelim || hasDelimPair cs

/-! ## TF-IDF retrieval (src/chat.py lines 17–31)

`TfidfVectorizer` and `cosine_similarity` are sklearn library calls.
They are embedded with exact rational arithmetic:

* tokenization follows sklearn's defaults (`lowercase=True`,
  `token_pattern=r"(?u)\b\w\w+\b"`): maximal runs of word characters,
  keeping only runs of at least two characters, lowercased;
* the fitted vocabulary is the list of distinct tokens (sklearn sorts it
  alphabetically; every similarity below is a sum over the vocabulary, so
  its value does not depend on the enumeration order chosen);
* `idf` is an abstract strictly positive weight per term, which subsumes
  sklearn's smoothed `ln((1+n)/(1+df))+1` (always ≥ 1 > 0);
* sklearn L2-normalizes each tf-idf row and `cosine_similarity` divides
  by the norms (treating a zero norm as 1, so a zero vector has
  similarity 0 with everything).  Instead of the normalized similarity
  `cos = dot/(‖u‖‖v‖)`, which needs square roots, the embedding ranks by
  its square `simSq = dot²/(dot(u,u)·dot(v,v))`.  All tf-idf entries are
  nonnegative, so every `cos` is in `[0,1]` and `cos ↦ cos²` is a strictly
  monotone bijection on the attained values: `argsort` of the `simSq` list
  equals `argsort` of the `cos` list, ties included;
* `sims.argsort()[::-1][:top_k]` with numpy's sort puts, among equal
  values, the largest index first after the reversal (numpy's sort is
  insertion sort on the small arrays considered here, hence stable), so
  `top_indices[0]` is the last index attaining the maximum. -/

/-- A word character of the default token pattern `\w` (ASCII part). -/
def isWordChar (c : Char) : Bool := c.isAlphanum || c = '_'

/-- Tokenizer scan: maximal runs of word characters, keeping runs of
length ≥ 2.  `acc` holds the current run reversed. -/
def pyTokenizeAux : List Char → List Char → List String
  | [], acc => if 2 ≤ acc.length then [String.mk acc.reverse] else []
  | c :: cs, acc =>
      if isWordChar c then pyTokenizeAux cs (c :: acc)
      else if 2 ≤ acc.length then String.mk acc.reverse :: pyTokenizeAux cs []
      else pyTokenizeAux cs []

/-- sklearn's `build_analyzer()` applied to a document (`lowercase=True`
maps every character to lower case first). -/
def pyTokenize (s : String) : List String :=
  pyTokenizeAux (s.data.map Char.toLower) []

/-- The fitted vocabulary over the sentence list. -/
def vocabOf (docs : List String) : List String := (docs.flatMap pyTokenize).dedup

/-- Raw term count of `t` in `doc` (sklearn's default `tf`). -/
def countTok (doc t : String) : Nat := (pyTokenize doc).count t

/-- The vocabulary-indexed token-count vector of a document. -/
def countsVec (vocab : List String) (doc : String) : List Nat :=
  vocab.map (countTok doc)

/-- The tf-idf row of a document: term count times the term's idf weight.
(The L2 normalization that sklearn applies next cancels in cosine
similarity and is omitted.) -/
def tfidfVec (idf : String → ℚ) (vocab : List String) (doc : String) : List ℚ :=
  vocab.map (fun t => (countTok doc t : ℚ) * idf t)

/-- Dot product of two rows. -/
def dotQ (u v : List ℚ) : ℚ := (List.zipWith (· * ·) u v).sum

/-- Squared cosine similarity, with zero rows given similarity 0 exactly
as `sklearn.metrics.pairwise.cosine_similarity` does. -/
def simSq (u v : List ℚ) : ℚ :=
  if dotQ u u = 0 ∨ dotQ v v = 0 then 0
  else dotQ u v ^ 2 / (dotQ u u * dotQ v v)

/-- The flattened `sims` array of `answer_question`. -/
def simsList (idf : String → ℚ) (units : List String) (question : String) :
    List ℚ :=
  units.map (fun u =>
    simSq (tfidfVec idf (vocabOf units) question) (tfidfVec idf (vocabOf units) u))

/-- Scan for `sims.argsort()[::-1][0]`: the index of the maximum value,
the last one in case of ties. -/
def lastArgmaxAux : List ℚ → Nat → Nat → ℚ → Nat
  | [], _, b, _ => b
  | v :: vs, i, b, bv =>
      if bv ≤ v then lastArgmaxAux vs (i + 1) i v
      else lastArgmaxAux vs (i + 1) b bv

/-- `sims.argsort()[::-1][0]` (0 on an empty array, unused). -/
def lastArgmax : List ℚ → Nat
  | [] => 0
  | v :: vs => lastArgmaxAux vs 1 0 v

/-- `answer_question` of src/chat.py with `top_k=1`: the best sentence is
`sentences[top_indices[0]]`, wrapped in the fixed reply header. -/
def answer_question (idf : String → ℚ) (question : String)
    (units : List String) : String :=
  "\n📌 Most Relevant Answer:\n" ++ units.getD (lastArgmax (simsList idf units question)) ""

/-! ## `save_notes`, `extract_audio`, `process_video`
(src/notes_summarizer.py lines 27–38, 116–170) -/

/-- A whisper transcript segment (`{"start": .., "end": .., "text": ..}`;
`end` is a reserved word in Lean, so the field is called `stop`).
Whisper emits nonnegative times; they are embedded as rationals, and
`int(x)` below is the floor, which agrees with Python on that range. -/
structure TranscriptSegment where
  start : ℚ
  stop : ℚ
  text : String
deriving DecidableEq

/-- Python `f"{n:02d}"` for the values produced below. -/
def pad2 (n : ℤ) : String :=
  if 0 ≤ n ∧ n < 10 then "0" ++ toString n else toString n

/-- One `[MM:SS] text` line: `minutes = int(start // 60)`,
`seconds = int(start % 60)`. -/
def fmtTimestampLine (ts : TranscriptSegment) : String :=
  "[" ++ pad2 ⌊ts.start / 60⌋ ++ ":" ++ pad2 (⌊ts.start⌋ - 60 * ⌊ts.start / 60⌋) ++ "] " ++ ts.text

/-- The `for i, ts in enumerate(timestamps)` loop of `save_notes`: a line
is written exactly when `i % 5 == 0 and i < 40`. -/
def saveTimestampLines : Nat → List TranscriptSegment → List String
  | _, [] => []
  | i, ts :: rest =>
      (if i % 5 = 0 ∧ i < 40 then [fmtTimestampLine ts] else [])
        ++ saveTimestampLines (i + 1) rest

/-- `"=" * 60`. -/
def eqRule : String := String.mk (List.replicate 60 '=')

/-- `"-" * 60`. -/
def dashRule : String := String.mk (List.replicate 60 '-')

/-- The full text `save_notes` writes to `output_file`.  The `transcript`
argument is accepted but, as in the source, never written. -/
def save_notes (_transcript summary : String)
    (timestamps : List TranscriptSegment) : String :=
  eqRule ++ "\n" ++
  "📝 IMPORTANT POINTS - AI NOTES SUMMARY\n" ++
  eqRule ++ "\n\n" ++
  "🎯 KEY TAKEAWAYS\n" ++
  dashRule ++ "\n\n" ++
  summary ++ "\n\n" ++
  "\n" ++ eqRule ++ "\n\n" ++
  "💡 NOTE: Full transcript available if needed\n" ++
  "The above points capture the essential information.\n\n" ++
  eqRule ++ "\n" ++
  "⏱️ TIMESTAMPS\n" ++
  eqRule ++ "\n\n" ++
  String.join ((saveTimestampLines 0 timestamps).map (fun l => l ++ "\n"))

/-- The external collaborators of `process_video`: the outcome of the
moviepy extraction calls (an exception or the written audio path), the
whisper transcription result, and the summarization model. -/
structure PipelineOracle where
  extractResult : Except String String
  transcribeResult : String × List TranscriptSegment
  model : String → String

/-- `extract_audio`: any exception from the extraction is caught, a
message is printed, and `None` is returned instead of re-raising. -/
def extract_audio (res : Except String String) : Option String :=
  match res with
  | .ok path => some path
  | .error _ => none

/-- `process_video`: first component is the returned result dict
(`None` aborts), second is the content written to `output_file`
(`none` when no file is written).  `if not audio_path: return None`
also treats an empty path as falsy. -/
def process_video (o : PipelineOracle) :
    Option (String × String × List TranscriptSegment) × Option String :=
  match extract_audio o.extractResult with
  | none => (none, none)
  | some audioPath =>
      if audioPath = "" then (none, none)
      else
        let transcript := o.transcribeResult.1
        let timestamps := o.transcribeResult.2
        let summary := summarize o.model transcript
        (some (transcript, summary, timestamps),
         some (save_notes transcript summary timestamps))

/-! ## Lemmas about the chunking loop -/

/-- The `current_length` accumulated over a word group: each word counts
its own length plus one separator. -/
def sumLen (g : List String) : Nat := (g.map (fun w => w.length + 1)).sum

theorem sumLen_concat (g : List String) (w : String) :
    sumLen (g ++ [w]) = sumLen g + (w.length + 1) := by
  simp [sumLen]

theorem joinWords_length {g : List String} (h : g ≠ []) :
    (joinWords g).length + 1 = sumLen g := by
  induction g with
  | nil => cases h rfl
  | cons w ws ih =>
    cases ws with
    | nil => simp [joinWords, sumLen]
    | cons w' ws' =>
      have h2 := ih (by simp)
      simp only [joinWords, sumLen, List.map_cons, List.sum_cons] at h2 ⊢
      simp only [String.length_append] at h2 ⊢
      have h3 : (" " : String).length = 1 := rfl
      omega

theorem chunkLoop_flatten (ws : List String) :
    ∀ cur len, (chunkLoop ws cur len).flatten = cur ++ ws := by
  induction ws with
  | nil =>
    intro cur len
    by_cases h : cur.isEmpty = true
    · rw [List.isEmpty_iff] at h
      simp [chunkLoop, h]
    · simp only [chunkLoop]
      rw [if_neg h]
      simp
  | cons w ws ih =>
    intro cur len
    by_cases h : maxChunkLength ≤ len + w.length + 1
    · simp [chunkLoop, h, ih]
    · simp [chunkLoop, h, ih]

theorem chunkLoop_ne_nil (ws : List String) :
    ∀ cur len g, g ∈ chunkLoop ws cur len → g ≠ [] := by
  induction ws with
  | nil =>
    intro cur len g hg
    by_cases h : cur.isEmpty = true
    · simp [chunkLoop, h] at hg
    · simp only [chunkLoop] at hg
      rw [if_neg h] at hg
      rcases List.mem_singleton.mp hg with rfl
      simpa [List.isEmpty_iff] using h
  | cons w ws ih =>
    intro cur len g hg
    by_cases h : maxChunkLength ≤ len + w.length + 1
    · simp only [chunkLoop, if_pos h] at hg
      rcases List.mem_cons.mp hg with rfl | hg
      · simp
      · exact ih _ _ _ hg
    · simp only [chunkLoop, if_neg h] at hg
      exact ih _ _ _ hg

theorem chunkLoop_upper (ws : List String) :
    ∀ cur len, sumLen cur = len → len + 1 ≤ maxChunkLength →
      ∀ g ∈ chunkLoop ws cur len,
        ∃ w, g.getLast? = some w ∧ sumLen g ≤ maxChunkLength + w.length := by
  induction ws with
  | nil =>
    intro cur len hlen hlt g hg
    by_cases h : cur.isEmpty = true
    · simp [chunkLoop, h] at hg
    · simp only [chunkLoop] at hg
      rw [if_neg h] at hg
      rcases List.mem_singleton.mp hg with rfl
      have hne : g ≠ [] := by simpa [List.isEmpty_iff] using h
      refine ⟨g.getLast hne, List.getLast?_eq_getLast g hne, ?_⟩
      omega
  | cons w ws ih =>
    intro cur len hlen hlt g hg
    by_cases h : maxChunkLength ≤ len + w.length + 1
    · simp only [chunkLoop, if_pos h] at hg
      rcases List.mem_cons.mp hg with rfl | hg
      · refine ⟨w, List.getLast?_concat _, ?_⟩
        rw [sumLen_concat]
        omega
      · exact ih [] 0 rfl (by simp [maxChunkLength]) g hg
    · simp only [chunkLoop, if_neg h] at hg
      refine ih _ _ ?_ (by omega) g hg
      rw [sumLen_concat, hlen]
      omega

theorem chunkLoop_lower (ws : List String) :
    ∀ cur len, sumLen cur = len →
      ∀ g ∈ (chunkLoop ws cur len).dropLast, maxChunkLength ≤ sumLen g := by
  induction ws with
  | nil =>
    intro cur len _ g hg
    by_cases h : cur.isEmpty = true
    · simp [chunkLoop, h] at hg
    · simp only [chunkLoop] at hg
      rw [if_neg h] at hg
      simp at hg
  | cons w ws ih =>
    intro cur len hlen g hg
    by_cases h : maxChunkLength ≤ len + w.length + 1
    · simp only [chunkLoop, if_pos h] at hg
      rcases hrest : chunkLoop ws [] 0 with _ | ⟨r, rs⟩
      · rw [hrest] at hg
        simp at hg
      · rw [hrest, List.dropLast_cons₂] at hg
        rcases List.mem_cons.mp hg with rfl | hg
        · rw [sumLen_concat]
          omega
        · have h2 := ih [] 0 rfl g
          rw [hrest] at h2
          exact h2 hg
    · simp only [chunkLoop, if_neg h] at hg
      refine ih _ _ ?_ g hg
      rw [sumLen_concat, hlen]
      omega

/-! ## Lemmas about `str.split()` and `" ".join` -/

theorem pySplitAux_good (cs : List Char) :
    ∀ acc, (∀ c ∈ acc, c.isWhitespace = false) →
      ∀ w ∈ pySplitAux cs acc, w.data ≠ [] ∧ ∀ c ∈ w.data, c.isWhitespace = false := by
  induction cs with
  | nil =>
    intro acc hacc w hw
    by_cases h : acc.isEmpty = true
    · simp [pySplitAux, h] at hw
    · simp only [pySplitAux] at hw
      rw [if_neg h] at hw
      rcases List.mem_singleton.mp hw with rfl
      refine ⟨?_, ?_⟩
      · show acc.reverse ≠ []
        simpa [List.isEmpty_iff] using h
      · intro c hc
        exact hacc c (List.mem_reverse.mp hc)
  | cons c cs ih =>
    intro acc hacc w hw
    by_cases hws : c.isWhitespace = true
    · by_cases h : acc.isEmpty = true
      · simp only [pySplitAux, hws, if_pos, h, if_true] at hw
        exact ih [] (by simp) w hw
      · simp only [pySplitAux, hws, if_pos] at hw
        rw [if_neg h] at hw
        rcases List.mem_cons.mp hw with rfl | hw
        · refine ⟨?_, ?_⟩
          · show acc.reverse ≠ []
            simpa [List.isEmpty_iff] using h
          · intro d hd
            exact hacc d (List.mem_reverse.mp hd)
        · exact ih [] (by simp) w hw
    · have hws' : c.isWhitespace = false := by simpa using hws
      simp only [pySplitAux, hws'] at hw
      refine ih (c :: acc) ?_ w hw
      intro d hd
      rcases List.mem_cons.mp hd with rfl | hd
      · exact hws'
      · exact hacc d hd

theorem pySplitAux_no_ws (cs : List Char) :
    ∀ acc, (∀ c ∈ cs, c.isWhitespace = false) →
      pySplitAux cs acc =
        if (acc.reverse ++ cs).isEmpty then [] else [String.mk (acc.reverse ++ cs)] := by
  induction cs with
  | nil =>
    intro acc _
    by_cases h : acc.isEmpty = true
    · rw [List.isEmpty_iff] at h
      simp [pySplitAux, h]
    · have h' : acc ≠ [] := by simpa [List.isEmpty_iff] using h
      simp only [pySplitAux]
      rw [if_neg h]
      simp [h']
  | cons c cs ih =>
    intro acc h
    have hc : c.isWhitespace = false := h c (by simp)
    simp only [pySplitAux, hc]
    rw [ih (c :: acc) (fun d hd => h d (by simp [hd]))]
    simp

theorem pySplitAux_word_space (cs : List Char) :
    ∀ (acc rest : List Char), (∀ c ∈ cs, c.isWhitespace = false) →
      acc.reverse ++ cs ≠ [] →
      pySplitAux (cs ++ ' ' :: rest) acc =
        String.mk (acc.reverse ++ cs) :: pySplitAux rest [] := by
  induction cs with
  | nil =>
    intro acc rest _ hne
    have hacc : acc ≠ [] := by
      intro h; exact hne (by simp [h])
    have hacc' : ¬ acc.isEmpty = true := by simpa [List.isEmpty_iff] using hacc
    show pySplitAux (' ' :: rest) acc = _
    simp only [pySplitAux]
    rw [if_pos (by decide : (' ' : Char).isWhitespace = true)]
    rw [if_neg hacc']
    simp
  | cons c cs ih =>
    intro acc rest h hne
    have hc : c.isWhitespace = false := h c (by simp)
    show pySplitAux (c :: (cs ++ ' ' :: rest)) acc = _
    simp only [pySplitAux, hc]
    rw [ih (c :: acc) rest (fun d hd => h d (by simp [hd])) (by simp)]
    simp

theorem pySplitWs_joinWords (g : List String)
    (hg : ∀ w ∈ g, w.data ≠ [] ∧ ∀ c ∈ w.data, c.isWhitespace = false) :
    pySplitWs (joinWords g) = g := by
  induction g with
  | nil => rfl
  | cons w ws ih =>
    cases ws with
    | nil =>
      obtain ⟨hne, hws⟩ := hg w (by simp)
      show pySplitAux w.data [] = [w]
      rw [pySplitAux_no_ws _ [] hws]
      simp [hne]
    | cons w' ws' =>
      obtain ⟨hne, hws⟩ := hg w (by simp)
      show pySplitAux (w ++ " " ++ joinWords (w' :: ws')).data [] = w :: w' :: ws'
      have hdata : (w ++ " " ++ joinWords (w' :: ws')).data
          = w.data ++ ' ' :: (joinWords (w' :: ws')).data := by
        rw [String.data_append, String.data_append]
        show w.data ++ [' '] ++ _ = _
        rw [List.append_assoc]
        rfl
      rw [hdata, pySplitAux_word_space w.data [] _ hws (by simpa using hne)]
      have hrest : pySplitAux (joinWords (w' :: ws')).data [] = w' :: ws' :=
        ih (fun u hu => hg u (by simp [hu]))
      rw [hrest]
      simp

/-! ## Claims about the chunking step (C1, C2, C3, C9) -/

/-- C3: for every transcript string, concatenating the words of all
chunks produced by the chunking step of `summarize`, in order, reproduces
the transcript's whitespace-delimited word sequence exactly (the final
partial chunk is flushed by the trailing `if current_chunk:`), and every
produced chunk — in particular every one but the last — is non-empty. -/
theorem chunking_reproduces_words (text : String) :
    (summarizeChunks text).flatMap pySplitWs = pySplitWs text ∧
    ∀ c ∈ summarizeChunks text, c ≠ "" := by
  have hgood : ∀ w ∈ pySplitWs text, w.data ≠ [] ∧ ∀ c ∈ w.data, c.isWhitespace = false :=
    pySplitAux_good text.data [] (by simp)
  have hflat : (chunkGroups (pySplitWs text)).flatten = pySplitWs text := by
    simpa using chunkLoop_flatten (pySplitWs text) [] 0
  have hmemgood : ∀ g ∈ chunkGroups (pySplitWs text),
      ∀ w ∈ g, w.data ≠ [] ∧ ∀ c ∈ w.data, c.isWhitespace = false := by
    intro g hgmem w hw
    exact hgood w (by rw [← hflat]; exact List.mem_flatten.mpr ⟨g, hgmem, hw⟩)
  have hsplit : ∀ g ∈ chunkGroups (pySplitWs text), pySplitWs (joinWords g) = g :=
    fun g hgm => pySplitWs_joinWords g (hmemgood g hgm)
  constructor
  · rw [summarizeChunks, List.flatMap_map]
    calc (chunkGroups (pySplitWs text)).flatMap (fun g => pySplitWs (joinWords g))
        = (chunkGroups (pySplitWs text)).flatMap id := by
          rw [List.flatMap, List.flatMap, List.map_congr_left ?_]
          intro g hgm
          exact hsplit g hgm
      _ = pySplitWs text := by rw [List.flatMap_id]; exact hflat
  · intro c hc
    rw [summarizeChunks, List.mem_map] at hc
    obtain ⟨g, hgm, rfl⟩ := hc
    intro hempty
    have h1 : pySplitWs (joinWords g) = g := hsplit g hgm
    have h2 : g ≠ [] := chunkLoop_ne_nil _ _ _ _ hgm
    rw [hempty] at h1
    exact h2 (by simpa [pySplitWs, pySplitAux] using h1.symm)

theorem chunking_reproduces_words_witness :
    (summarizeChunks "ab cd").flatMap pySplitWs = pySplitWs "ab cd" ∧ "ab cd" ≠ "" :=
  ⟨(chunking_reproduces_words "ab cd").1,
   (chunking_reproduces_words "ab cd").2 "ab cd" (by decide)⟩

/-- C9: every chunk but the last is flushed by the
`current_length >= max_chunk_length` test, so its accumulated length
`sumLen` (word lengths plus one separator each) is at least 1024 and its
joined character length is at least 1023; the flush happens only once the
threshold is reached, so the joined length exceeds 1024 by at most the
length of the chunk's final word. -/
theorem nonfinal_chunks_reach_threshold (text : String) :
    ∀ g ∈ (chunkGroups (pySplitWs text)).dropLast,
      1024 ≤ sumLen g ∧ 1023 ≤ (joinWords g).length ∧
      ∃ w, g.getLast? = some w ∧ (joinWords g).length ≤ 1024 + w.length := by
  intro g hg
  have hmax : maxChunkLength = 1024 := rfl
  have hmem : g ∈ chunkGroups (pySplitWs text) := List.mem_of_mem_dropLast hg
  have hne : g ≠ [] := chunkLoop_ne_nil _ _ _ _ hmem
  have hlow := chunkLoop_lower (pySplitWs text) [] 0 rfl g hg
  have hlen := joinWords_length hne
  obtain ⟨w, hw, hub⟩ :=
    chunkLoop_upper (pySplitWs text) [] 0 rfl (by rw [hmax]; omega) g hmem
  rw [hmax] at hlow hub
  exact ⟨hlow, by omega, w, hw, by omega⟩

theorem nonfinal_chunks_reach_threshold_witness :
    1024 ≤ sumLen [String.mk (List.replicate 1025 'a')] ∧
    1023 ≤ (joinWords [String.mk (List.replicate 1025 'a')]).length ∧
    ∃ w, ([String.mk (List.replicate 1025 'a')] : List String).getLast? = some w ∧
      (joinWords [String.mk (List.replicate 1025 'a')]).length ≤ 1024 + w.length :=
  nonfinal_chunks_reach_threshold
    (String.mk (List.replicate 1025 'a') ++ " bb")
    [String.mk (List.replicate 1025 'a')] (by decide)

/-- C2 (amended): the loop appends each word to the current chunk and
only then tests the accumulated length against 1024, so a chunk's joined
length is bounded by 1023 plus the length of its final word — not by
1024. -/
theorem chunk_length_bound (text : String) :
    ∀ g ∈ chunkGroups (pySplitWs text),
      ∃ w, g.getLast? = some w ∧ (joinWords g).length ≤ 1023 + w.length := by
  intro g hg
  have hmax : maxChunkLength = 1024 := rfl
  have hne : g ≠ [] := chunkLoop_ne_nil _ _ _ _ hg
  have hlen := joinWords_length hne
  obtain ⟨w, hw, hub⟩ :=
    chunkLoop_upper (pySplitWs text) [] 0 rfl (by rw [hmax]; omega) g hg
  rw [hmax] at hub
  exact ⟨w, hw, by omega⟩

theorem chunk_length_bound_witness :
    ∃ w, (["ab"] : List String).getLast? = some w ∧
      (joinWords ["ab"]).length ≤ 1023 + w.length :=
  chunk_length_bound "ab" ["ab"] (by decide)

/-- C2 counterexample: a transcript consisting of one 1025-character word
produces exactly one chunk, itself of length 1025 > 1024 — so not every
produced chunk is at most 1024 characters long. -/
theorem chunk_exceeds_1024_counterexample :
    summarizeChunks (String.mk (List.replicate 1025 'a'))
      = [String.mk (List.replicate 1025 'a')] ∧
    1024 < (String.mk (List.replicate 1025 'a')).length :=
  ⟨by decide, by decide⟩

/-- C1 (amended): in `summarize`, a chunk is passed to the summarization
model, contributing one summary string in order, exactly when it has
strictly more than 50 whitespace-delimited words; chunks with 50 words or
fewer are silently skipped. -/
theorem summarize_skip_characterization (model : String → String) (text : String) :
    summarizeLoop model (summarizeChunks text) =
      ((summarizeChunks text).filter (fun c => 50 < (pySplitWs c).length)).map model := by
  generalize summarizeChunks text = l
  induction l with
  | nil => rfl
  | cons c cs ih =>
    by_cases h : 50 < (pySplitWs c).length
    · simp [summarizeLoop, h, List.filter_cons, ih]
    · simp [summarizeLoop, h, List.filter_cons, ih]

/-- C1 counterexample: a transcript of exactly 50 two-letter words forms
one chunk of exactly 50 words, and that chunk contributes no summary —
the boundary case `len(chunk.split()) == 50` is skipped, refuting "every
chunk with 50 or more words is passed to the model". -/
theorem fifty_word_chunk_skipped_counterexample :
    (pySplitWs (joinWords (List.replicate 50 "aa"))).length = 50 ∧
    summarizeChunks (joinWords (List.replicate 50 "aa"))
      = [joinWords (List.replicate 50 "aa")] ∧
    summarizeLoop (fun _ => "point") (summarizeChunks (joinWords (List.replicate 50 "aa"))) = [] :=
  ⟨by decide, by decide, by decide⟩


/-! ## Claims about bullet formatting and timestamps (C5, C7) -/

/-- C7: every bullet line emitted by `format_bullet_points` is at least
16 characters long: only stripped fragments longer than 15 characters are
kept, and each kept fragment gets the two-character `"• "` glyph, so a
bullet line in fact has at least 18 characters. -/
theorem bullet_lines_min_length (summaries : List String) :
    ∀ b ∈ bulletPointsList summaries, 16 ≤ b.length := by
  intro b hb
  rw [bulletPointsList, List.mem_flatMap] at hb
  obtain ⟨s, _, hb⟩ := hb
  rw [List.mem_filterMap] at hb
  obtain ⟨frag, _, hfrag⟩ := hb
  by_cases h : 15 < (String.mk (pyStripL frag)).length
  · rw [if_pos h] at hfrag
    cases hfrag
    rw [String.length_append]
    have h2 : ("• " : String).length = 2 := rfl
    omega
  · rw [if_neg h] at hfrag
    cases hfrag

theorem bullet_lines_min_length_witness :
    16 ≤ ("• This is a long sentence." : String).length :=
  bullet_lines_min_length ["This is a long sentence."]
    "• This is a long sentence." (by decide)

theorem saveTimestampLines_eq_filter (tss : List TranscriptSegment) :
    ∀ i, saveTimestampLines i tss =
      ((tss.enumFrom i).filter (fun p => p.1 % 5 == 0 && decide (p.1 < 40))).map
        (fun p => fmtTimestampLine p.2) := by
  induction tss with
  | nil => intro i; rfl
  | cons ts rest ih =>
    intro i
    simp only [saveTimestampLines, List.enumFrom, List.filter_cons]
    by_cases h : i % 5 = 0 ∧ i < 40
    · rw [if_pos h]
      have hb : ((i % 5 == 0 : Bool) && decide (i < 40)) = true := by
        simp [h.1, h.2]
      rw [hb]
      simp [ih]
    · rw [if_neg h]
      have hb : ((i % 5 == 0 : Bool) && decide (i < 40)) = false := by
        by_cases h1 : i % 5 = 0
        · have h2 : ¬ i < 40 := fun hc => h ⟨h1, hc⟩
          simp [h1, h2]
        · simp [h1]
      rw [hb]
      simp [ih]

theorem enumFrom_filter_fst (q : Nat → Bool) (tss : List TranscriptSegment) :
    ∀ i, ((tss.enumFrom i).filter (fun p => q p.1)).map Prod.fst
      = (List.range' i tss.length).filter q := by
  induction tss with
  | nil => intro i; rfl
  | cons ts rest ih =>
    intro i
    simp only [List.enumFrom, List.filter_cons, List.length_cons, List.range']
    by_cases h : q i = true
    · simp [h, ih]
    · simp [h, ih]

/-- C5: `save_notes` emits one `[MM:SS] text` line per transcript
segment whose index `i` satisfies `i % 5 == 0` and `i < 40`, in segment
order; for 45 segments exactly 8 lines are emitted, at indices
0, 5, ..., 35, with index 40 excluded by the cap. -/
theorem save_notes_timestamp_decimation (tss : List TranscriptSegment) :
    saveTimestampLines 0 tss =
      ((tss.enum.filter (fun p => p.1 % 5 == 0 && decide (p.1 < 40))).map
        (fun p => fmtTimestampLine p.2)) ∧
    (tss.length = 45 →
      (saveTimestampLines 0 tss).length = 8 ∧
      (tss.enum.filter (fun p => p.1 % 5 == 0 && decide (p.1 < 40))).map Prod.fst
        = [0, 5, 10, 15, 20, 25, 30, 35]) := by
  have h0 : tss.enum = tss.enumFrom 0 := rfl
  constructor
  · rw [h0]
    exact saveTimestampLines_eq_filter tss 0
  · intro h45
    have hfst := enumFrom_filter_fst (fun n => n % 5 == 0 && decide (n < 40)) tss 0
    rw [h45] at hfst
    have hrange : (List.range' 0 45).filter (fun n => n % 5 == 0 && decide (n < 40))
        = [0, 5, 10, 15, 20, 25, 30, 35] := by decide
    constructor
    · rw [saveTimestampLines_eq_filter tss 0, List.length_map]
      have hlen := congrArg List.length hfst
      rw [List.length_map, hrange] at hlen
      simpa [h0] using hlen
    · rw [h0, hfst, hrange]

def segs45 : List TranscriptSegment := (List.range 45).map (fun k => ⟨k, k, "s"⟩)

theorem save_notes_timestamp_decimation_witness :
    (saveTimestampLines 0 segs45).length = 8 ∧
    (segs45.enum.filter (fun p => p.1 % 5 == 0 && decide (p.1 < 40))).map Prod.fst
      = [0, 5, 10, 15, 20, 25, 30, 35] :=
  (save_notes_timestamp_decimation segs45).2 (by decide)

/-! ## No-delimiter behaviour of the sentence splitter -/

theorem hasDelimPair_tail (x : Char) (rest : List Char)
    (h : hasDelimPair (x :: rest) = false) : hasDelimPair rest = false := by
  cases rest with
  | nil => rfl
  | cons r rs =>
    simp only [hasDelimPair, Bool.or_eq_false_iff] at h
    exact h.2

theorem containsDelim_suffix (xs : List Char) :
    ∀ ys, containsDelim (xs ++ ys) = false → containsDelim ys = false := by
  induction xs with
  | nil => intro ys h; exact h
  | cons x xs ih =>
    intro ys h
    simp only [containsDelim, List.cons_append, List.any_cons,
      Bool.or_eq_false_iff] at h
    refine ih ys ?_
    simp only [containsDelim, Bool.or_eq_false_iff]
    exact ⟨h.1.2, hasDelimPair_tail x _ h.2⟩

theorem hasDelimPair_mid (a b : Char) (ys : List Char) : ∀ xs,
    hasDelimPair (xs ++ a :: b :: ys) = false →
    ((a = '-' && b = ' ') || (a.isDigit && b = ')')) = false := by
  intro xs
  induction xs with
  | nil =>
    intro h
    simp only [List.nil_append, hasDelimPair, Bool.or_eq_false_iff] at h
    simp [h.1.1, h.1.2]
  | cons x xs ih =>
    intro h
    exact ih (hasDelimPair_tail x _ h)

theorem reSplitGo_no_delim (cs : List Char) :
    ∀ run acc, (run = [] ∨ run = ['-'] ∨ (run ≠ [] ∧ ∀ d ∈ run, d.isDigit = true)) →
      containsDelim (run.reverse ++ cs) = false →
      reSplitGo cs run acc = [String.mk ((run ++ acc).reverse ++ cs)] := by
  induction cs with
  | nil =>
    intro run acc _ _
    simp [reSplitGo]
  | cons c cs ih =>
    intro run acc hinv hno
    have hcmem : isSingleDelim c = false := by
      simp only [containsDelim, Bool.or_eq_false_iff, List.any_eq_false] at hno
      simpa using hno.1 c (by simp)
    have hnoc : containsDelim (c :: cs) = false := containsDelim_suffix run.reverse _ hno
    have hnocs : containsDelim cs = false := by
      have := hnoc
      simp only [containsDelim, List.any_cons, Bool.or_eq_false_iff] at this
      simp only [containsDelim, Bool.or_eq_false_iff]
      exact ⟨this.1.2, hasDelimPair_tail c _ this.2⟩
    rcases hinv with rfl | rfl | ⟨hne, hdig⟩
    · -- run = []
      rw [reSplitGo]
      have hh : ([] : List Char).head? ≠ some '-' := by simp
      rw [if_neg hh, if_pos (by simp)]
      rw [if_neg (by simp [hcmem])]
      by_cases hc1 : c = '-'
      · subst hc1
        rw [if_pos rfl]
        rw [ih ['-'] acc (Or.inr (Or.inl rfl)) (by simpa using hnoc)]
        simp
      · rw [if_neg hc1]
        by_cases hc2 : c.isDigit = true
        · rw [if_pos hc2]
          rw [ih [c] acc (Or.inr (Or.inr ⟨by simp, by simp [hc2]⟩)) (by simpa using hnoc)]
          simp
        · rw [if_neg hc2]
          rw [ih [] (c :: acc) (Or.inl rfl) (by simpa using hnocs)]
          simp
    · -- run = ['-']
      rw [reSplitGo]
      rw [if_pos (by simp)]
      have hpair := hasDelimPair_mid '-' c cs [] (by
        have := hno
        simp only [containsDelim, Bool.or_eq_false_iff] at this
        simpa using this.2)
      have hcsp : c ≠ ' ' := by
        intro hc
        subst hc
        simp at hpair
      rw [if_neg hcsp, if_neg (by simp [hcmem])]
      by_cases hc1 : c = '-'
      · subst hc1
        rw [if_pos rfl]
        rw [ih ['-'] (['-'] ++ acc) (Or.inr (Or.inl rfl)) (by simpa using hnoc)]
        simp
      · rw [if_neg hc1]
        by_cases hc2 : c.isDigit = true
        · rw [if_pos hc2]
          rw [ih [c] (['-'] ++ acc) (Or.inr (Or.inr ⟨by simp, by simp [hc2]⟩))
            (by simpa using hnoc)]
          simp
        · rw [if_neg hc2]
          rw [ih [] (c :: (['-'] ++ acc)) (Or.inl rfl) (by simpa using hnocs)]
          simp
    · -- run = nonempty digits
      obtain ⟨d, ds, rfl⟩ := List.exists_cons_of_ne_nil hne
      have hddig : d.isDigit = true := hdig d (by simp)
      rw [reSplitGo]
      have hh : (d :: ds).head? ≠ some '-' := by
        simp only [List.head?_cons]
        intro hc
        cases hc
        simp at hddig
      rw [if_neg hh, if_neg (by simp)]
      have hpair := hasDelimPair_mid d c cs ds.reverse (by
        have := hno
        simp only [containsDelim, Bool.or_eq_false_iff] at this
        have h2 := this.2
        simpa using h2)
      have hcrp : c ≠ ')' := by
        intro hc
        subst hc
        simp [hddig] at hpair
      rw [if_neg hcrp]
      by_cases hc2 : c.isDigit = true
      · rw [if_pos hc2]
        rw [ih (c :: d :: ds) acc
          (Or.inr (Or.inr ⟨by simp, by
            intro x hx
            rcases List.mem_cons.mp hx with rfl | hx
            · exact hc2
            · exact hdig x hx⟩))
          (by
            have : (c :: d :: ds).reverse ++ cs = (d :: ds).reverse ++ c :: cs := by
              simp
            rw [this]
            exact hno)]
        simp
      · rw [if_neg hc2, if_neg (by simp [hcmem])]
        by_cases hc1 : c = '-'
        · subst hc1
          rw [if_pos rfl]
          rw [ih ['-'] (d :: ds ++ acc) (Or.inr (Or.inl rfl)) (by simpa using hnoc)]
          simp
        · rw [if_neg hc1]
          rw [ih [] (c :: (d :: ds ++ acc)) (Or.inl rfl) (by simpa using hnocs)]
          simp

/-! ## Claims C8, C6, C10 -/

/-- C8 (amended): for every text containing none of the split delimiters
(newline, `•`, `- `, `*`, or a digit followed by `)`),
`split_into_sentences` returns the single-element sequence holding the
text stripped of leading and trailing whitespace — or the empty sequence
when the text is whitespace-only. -/
theorem no_delim_single_sentence (text : String)
    (h : containsDelim text.data = false) :
    split_into_sentences text = if pyStrip text = "" then [] else [pyStrip text] := by
  rw [split_into_sentences, pyReSplit,
    reSplitGo_no_delim text.data [] [] (Or.inl rfl) (by simpa using h)]
  have hmk : String.mk text.data = text := rfl
  simp only [List.append_nil, List.reverse_nil, List.nil_append, hmk,
    List.map_cons, List.map_nil]
  by_cases hs : pyStrip text = ""
  · simp [hs, List.filter]
  · simp [hs, List.filter]

theorem no_delim_single_sentence_witness :
    split_into_sentences "hello world"
      = if pyStrip "hello world" = "" then [] else [pyStrip "hello world"] :=
  no_delim_single_sentence "hello world" (by decide)

/-- C8 counterexample: `" ab"` contains no delimiter, yet
`split_into_sentences " ab"` is `["ab"]`, not `[" ab"]` — the sole
element is the stripped text, not the whole text; and the delimiter-free
whitespace-only text `"  "` yields `[]`, not a single-element sequence. -/
theorem whole_text_not_returned_counterexample :
    containsDelim (" ab" : String).data = false ∧
    split_into_sentences " ab" = ["ab"] ∧ (" ab" : String) ≠ "ab" ∧
    containsDelim ("  " : String).data = false ∧
    split_into_sentences "  " = [] :=
  ⟨by decide, by decide, by decide, by decide, by decide⟩

/-- C6: when the extraction library raises, `extract_audio` catches the
exception and returns `None` instead of re-raising; `process_video`
treats the `None` as a pipeline-abort signal and returns `None` without
running any later stage and without writing any output file. -/
theorem extraction_error_aborts (o : PipelineOracle) (e : String)
    (h : o.extractResult = .error e) :
    extract_audio o.extractResult = none ∧ process_video o = (none, none) := by
  have h1 : extract_audio o.extractResult = none := by rw [h]; rfl
  exact ⟨h1, by rw [process_video, h1]⟩

theorem extraction_error_aborts_witness :
    extract_audio (PipelineOracle.mk (.error "corrupt file") ("t", []) (fun _ => "s")).extractResult = none ∧
    process_video (PipelineOracle.mk (.error "corrupt file") ("t", []) (fun _ => "s")) = (none, none) :=
  extraction_error_aborts (PipelineOracle.mk (.error "corrupt file") ("t", []) (fun _ => "s")) "corrupt file" rfl

theorem sub_chunk_words_le (text : String) :
    ∀ c ∈ summarizeChunks text, (pySplitWs c).length ≤ (pySplitWs text).length := by
  intro c hc
  have hgood : ∀ w ∈ pySplitWs text, w.data ≠ [] ∧ ∀ ch ∈ w.data, ch.isWhitespace = false :=
    pySplitAux_good text.data [] (by simp)
  have hflat : (chunkGroups (pySplitWs text)).flatten = pySplitWs text := by
    simpa using chunkLoop_flatten (pySplitWs text) [] 0
  rw [summarizeChunks, List.mem_map] at hc
  obtain ⟨g, hgm, rfl⟩ := hc
  have hsplit : pySplitWs (joinWords g) = g := by
    refine pySplitWs_joinWords g ?_
    intro w hw
    exact hgood w (by rw [← hflat]; exact List.mem_flatten.mpr ⟨g, hgm, hw⟩)
  rw [hsplit, ← hflat, List.length_flatten]
  exact List.single_le_sum (by simp) _ (List.mem_map_of_mem List.length hgm)

theorem summarizeLoop_nil_of_short (model : String → String) :
    ∀ l : List String, (∀ c ∈ l, (pySplitWs c).length ≤ 50) →
      summarizeLoop model l = [] := by
  intro l
  induction l with
  | nil => intro _; rfl
  | cons c cs ih =>
    intro h
    have hc : ¬ 50 < (pySplitWs c).length := by
      have := h c (by simp)
      omega
    simp only [summarizeLoop, if_neg hc]
    exact ih (fun d hd => h d (by simp [hd]))

/-- C10: if every chunk of the transcript has at most 50 words (which
holds in particular when the whole transcript has at most 50 words, the
first conjunct), `summarize` returns the empty string, and
`process_video` still writes the notes file — with an empty KEY
TAKEAWAYS body — and returns a non-`None` result: a too-short transcript
is not a pipeline failure. -/
theorem short_transcript_still_writes_notes (o : PipelineOracle) (path : String)
    (hok : o.extractResult = .ok path) (hpath : path ≠ "")
    (hshort : ∀ c ∈ summarizeChunks o.transcribeResult.1, (pySplitWs c).length ≤ 50) :
    ((pySplitWs o.transcribeResult.1).length ≤ 50 →
       ∀ c ∈ summarizeChunks o.transcribeResult.1, (pySplitWs c).length ≤ 50) ∧
    summarize o.model o.transcribeResult.1 = "" ∧
    process_video o =
      (some (o.transcribeResult.1, "", o.transcribeResult.2),
       some (save_notes o.transcribeResult.1 "" o.transcribeResult.2)) := by
  have hsum : summarize o.model o.transcribeResult.1 = "" := by
    rw [summarize, summarizeLoop_nil_of_short o.model _ hshort]
    rfl
  refine ⟨?_, hsum, ?_⟩
  · intro htot c hc
    exact le_trans (sub_chunk_words_le o.transcribeResult.1 c hc) htot
  · have h1 : extract_audio o.extractResult = some path := by rw [hok]; rfl
    rw [process_video, h1]
    dsimp only
    rw [if_neg hpath, hsum]

theorem short_transcript_still_writes_notes_witness :
    ((pySplitWs (PipelineOracle.mk (.ok "temp_audio.mp3") ("hi there", []) (fun _ => "s")).transcribeResult.1).length ≤ 50 →
       ∀ c ∈ summarizeChunks (PipelineOracle.mk (.ok "temp_audio.mp3") ("hi there", []) (fun _ => "s")).transcribeResult.1,
         (pySplitWs c).length ≤ 50) ∧
    summarize (PipelineOracle.mk (.ok "temp_audio.mp3") ("hi there", []) (fun _ => "s")).model
        (PipelineOracle.mk (.ok "temp_audio.mp3") ("hi there", []) (fun _ => "s")).transcribeResult.1 = "" ∧
    process_video (PipelineOracle.mk (.ok "temp_audio.mp3") ("hi there", []) (fun _ => "s")) =
      (some ("hi there", "", []), some (save_notes "hi there" "" [])) :=
  short_transcript_still_writes_notes
    (PipelineOracle.mk (.ok "temp_audio.mp3") ("hi there", []) (fun _ => "s"))
    "temp_audio.mp3" rfl (by decide) (by decide)


/-! ## Cauchy–Schwarz for rational rows (Lagrange identity) -/

def lagQ : List ℚ → List ℚ → ℚ
  | a :: u, b :: v =>
      ((List.zipWith (fun x y => a * y - b * x) u v).map (fun z => z ^ 2)).sum + lagQ u v
  | _, _ => 0

theorem dotQ_cons (a b : ℚ) (u v : List ℚ) :
    dotQ (a :: u) (b :: v) = a * b + dotQ u v := by
  simp [dotQ]

theorem dotQ_self_nonneg (u : List ℚ) : 0 ≤ dotQ u u := by
  induction u with
  | nil => simp [dotQ]
  | cons a u ih =>
    rw [dotQ_cons]
    have := mul_self_nonneg a
    linarith

theorem cross_sum (a b : ℚ) (u : List ℚ) :
    ∀ v : List ℚ, u.length = v.length →
      ((List.zipWith (fun x y => a * y - b * x) u v).map (fun z => z ^ 2)).sum
        = a ^ 2 * dotQ v v - 2 * a * b * dotQ u v + b ^ 2 * dotQ u u := by
  induction u with
  | nil =>
    intro v h
    have hv : v = [] := List.eq_nil_of_length_eq_zero h.symm
    subst hv
    simp [dotQ]
  | cons x u ih =>
    intro v h
    cases v with
    | nil => simp at h
    | cons y v =>
      have hlen : u.length = v.length := by
        simpa using h
      simp only [List.zipWith_cons_cons, List.map_cons, List.sum_cons,
        dotQ_cons, ih v hlen]
      ring

theorem lagrange_identity (u : List ℚ) :
    ∀ v : List ℚ, u.length = v.length →
      dotQ u u * dotQ v v - dotQ u v ^ 2 = lagQ u v := by
  induction u with
  | nil =>
    intro v h
    have hv : v = [] := List.eq_nil_of_length_eq_zero h.symm
    subst hv
    simp [dotQ, lagQ]
  | cons a u ih =>
    intro v h
    cases v with
    | nil => simp at h
    | cons b v =>
      have hlen : u.length = v.length := by simpa using h
      simp only [lagQ, dotQ_cons, cross_sum a b u v hlen, ← ih v hlen]
      ring

theorem lagQ_nonneg (u : List ℚ) : ∀ v : List ℚ, 0 ≤ lagQ u v := by
  induction u with
  | nil => intro v; simp [lagQ]
  | cons a u ih =>
    intro v
    cases v with
    | nil => simp [lagQ]
    | cons b v =>
      have h1 : 0 ≤ ((List.zipWith (fun x y => a * y - b * x) u v).map (fun z => z ^ 2)).sum := by
        refine List.sum_nonneg ?_
        intro z hz
        rw [List.mem_map] at hz
        obtain ⟨w, _, rfl⟩ := hz
        exact sq_nonneg w
      have h2 := ih v
      simp only [lagQ]
      linarith

theorem lagQ_ge_minor (u : List ℚ) :
    ∀ (v : List ℚ) (k l : ℕ), u.length = v.length → k < l → l < u.length →
      (u.getD k 0 * v.getD l 0 - u.getD l 0 * v.getD k 0) ^ 2 ≤ lagQ u v := by
  induction u with
  | nil =>
    intro v k l _ _ hl
    simp at hl
  | cons a u ih =>
    intro v k l hlen hkl hl
    cases v with
    | nil => simp at hlen
    | cons b v =>
      have hlen' : u.length = v.length := by simpa using hlen
      cases k with
      | zero =>
        -- minor pairs head a (resp. b) with position l-1 of the tails
        obtain ⟨l', rfl⟩ : ∃ l', l = l' + 1 := ⟨l - 1, by omega⟩
        have hl' : l' < u.length := by
          simpa using hl
        have hl'v : l' < v.length := hlen' ▸ hl'
        have hterm : ((a :: u).getD 0 0 * (b :: v).getD (l' + 1) 0
            - (a :: u).getD (l' + 1) 0 * (b :: v).getD 0 0) ^ 2
            = (a * v.getD l' 0 - b * u.getD l' 0) ^ 2 := by
          simp only [List.getD_cons_zero, List.getD_cons_succ]
          ring
        rw [hterm]
        have hmem : (a * v.getD l' 0 - b * u.getD l' 0) ^ 2
            ∈ (List.zipWith (fun x y => a * y - b * x) u v).map (fun z => z ^ 2) := by
          have hzlen : l' < (List.zipWith (fun x y => a * y - b * x) u v).length := by
            rw [List.length_zipWith]
            omega
          have : (List.zipWith (fun x y => a * y - b * x) u v)[l']
              = a * v.getD l' 0 - b * u.getD l' 0 := by
            rw [List.getElem_zipWith]
            rw [List.getD_eq_getElem u 0 hl', List.getD_eq_getElem v 0 hl'v]
          rw [← this]
          exact List.mem_map_of_mem _ (List.getElem_mem hzlen)
        have hle : (a * v.getD l' 0 - b * u.getD l' 0) ^ 2
            ≤ ((List.zipWith (fun x y => a * y - b * x) u v).map (fun z => z ^ 2)).sum := by
          refine List.single_le_sum ?_ _ hmem
          intro z hz
          rw [List.mem_map] at hz
          obtain ⟨w, _, rfl⟩ := hz
          exact sq_nonneg w
        have hlag := lagQ_nonneg u v
        simp only [lagQ]
        linarith
      | succ k' =>
        obtain ⟨l', rfl⟩ : ∃ l', l = l' + 1 := ⟨l - 1, by omega⟩
        have hkl' : k' < l' := by omega
        have hl' : l' < u.length := by simpa using hl
        have h1 : 0 ≤ ((List.zipWith (fun x y => a * y - b * x) u v).map (fun z => z ^ 2)).sum := by
          refine List.sum_nonneg ?_
          intro z hz
          rw [List.mem_map] at hz
          obtain ⟨w, _, rfl⟩ := hz
          exact sq_nonneg w
        have h2 := ih v k' l' hlen' hkl' hl'
        simp only [List.getD_cons_succ, lagQ]
        linarith

/-! ## Similarity comparison and the argsort selection -/

theorem simSq_self (v : List ℚ) (h : dotQ v v ≠ 0) : simSq v v = 1 := by
  rw [simSq, if_neg (by tauto)]
  rw [sq]
  exact div_self (mul_ne_zero h h)

theorem simSq_lt_one (u v : List ℚ) (hu : dotQ u u ≠ 0)
    (hlen : u.length = v.length)
    (hminor : ∃ k l, k < u.length ∧ l < u.length ∧
      u.getD k 0 * v.getD l 0 ≠ u.getD l 0 * v.getD k 0) :
    simSq u v < 1 := by
  by_cases hv : dotQ v v = 0
  · rw [simSq, if_pos (Or.inr hv)]
    norm_num
  · rw [simSq, if_neg (by tauto)]
    have hupos : 0 < dotQ u u := lt_of_le_of_ne (dotQ_self_nonneg u) (Ne.symm hu)
    have hvpos : 0 < dotQ v v := lt_of_le_of_ne (dotQ_self_nonneg v) (Ne.symm hv)
    rw [div_lt_one (by positivity)]
    obtain ⟨k, l, hk, hl, hne⟩ := hminor
    have hlag : 0 < lagQ u v := by
      rcases Nat.lt_trichotomy k l with hkl | rfl | hlk
      · have := lagQ_ge_minor u v k l hlen hkl hl
        have hsq : 0 < (u.getD k 0 * v.getD l 0 - u.getD l 0 * v.getD k 0) ^ 2 := by
          have : u.getD k 0 * v.getD l 0 - u.getD l 0 * v.getD k 0 ≠ 0 := sub_ne_zero.mpr hne
          positivity
        linarith
      · exact absurd rfl hne
      · have := lagQ_ge_minor u v l k hlen hlk hk
        have hne' : u.getD l 0 * v.getD k 0 - u.getD k 0 * v.getD l 0 ≠ 0 :=
          sub_ne_zero.mpr (Ne.symm hne)
        have hsq : 0 < (u.getD l 0 * v.getD k 0 - u.getD k 0 * v.getD l 0) ^ 2 := by
          positivity
        linarith
    have := lagrange_identity u v hlen
    linarith

theorem lastArgmaxAux_spec (sims : List ℚ) (i : ℕ) (hilen : i < sims.length)
    (hmax : ∀ j, j < sims.length → j ≠ i → sims.getD j 0 < sims.getD i 0) :
    ∀ (tail : List ℚ) (k b : ℕ) (bv : ℚ),
      sims.drop k = tail → b < k → bv = sims.getD b 0 → (i < k → b = i) →
      lastArgmaxAux tail k b bv = i := by
  intro tail
  induction tail with
  | nil =>
    intro k b bv hdrop hbk _ hik
    have hlen : sims.length ≤ k := by
      rw [← List.drop_eq_nil_iff, hdrop]
    exact hik (lt_of_lt_of_le hilen hlen)
  | cons v vs ih =>
    intro k b bv hdrop hbk hbv hik
    have hklen : k < sims.length := by
      by_contra hc
      push_neg at hc
      rw [List.drop_eq_nil_iff.mpr hc] at hdrop
      cases hdrop
    have hv : sims.getD k 0 = v := by
      have h0 : (sims.drop k)[0]? = sims[k + 0]? := List.getElem?_drop sims k 0
      rw [hdrop] at h0
      simp only [List.getElem?_cons_zero, Nat.add_zero] at h0
      rw [List.getD_eq_getElem sims 0 hklen]
      have := h0.symm
      simp only [List.getElem?_eq_getElem hklen] at this
      exact (Option.some_injective _ this)
    have hvs : sims.drop (k + 1) = vs := by
      rw [← List.drop_drop, hdrop]
      rfl
    simp only [lastArgmaxAux]
    by_cases hki : k = i
    · have hbne : b ≠ i := by omega
      have hblt : sims.getD b 0 < sims.getD i 0 := hmax b (by omega) hbne
      have hcond : bv ≤ v := by
        rw [hbv, ← hv, hki]
        exact le_of_lt hblt
      rw [if_pos hcond]
      exact ih (k + 1) k v hvs (by omega) hv.symm (fun _ => hki)
    · by_cases hik2 : i < k
      · have hbi : b = i := hik hik2
        subst hbi
        have hvlt : sims.getD k 0 < sims.getD b 0 := hmax k hklen hki
        have hcond : ¬ bv ≤ v := by
          rw [hbv, ← hv]
          exact not_le.mpr hvlt
        rw [if_neg hcond]
        exact ih (k + 1) b bv hvs (by omega) hbv (fun _ => rfl)
      · have hki2 : k < i := by omega
        by_cases hcond : bv ≤ v
        · rw [if_pos hcond]
          exact ih (k + 1) k v hvs (by omega) hv.symm (by omega)
        · rw [if_neg hcond]
          exact ih (k + 1) b bv hvs (by omega) hbv (by omega)

theorem lastArgmax_unique_max (sims : List ℚ) (i : ℕ) (hilen : i < sims.length)
    (hmax : ∀ j, j < sims.length → j ≠ i → sims.getD j 0 < sims.getD i 0) :
    lastArgmax sims = i := by
  cases sims with
  | nil => simp at hilen
  | cons v vs =>
    rw [lastArgmax]
    refine lastArgmaxAux_spec (v :: vs) i hilen hmax vs 1 0 v rfl (by omega) rfl ?_
    intro h1
    omega

/-! ## tf-idf rows and token-count minors -/

def minorsVanish (u v : List Nat) : Prop :=
  ∀ k, k < u.length → ∀ l, l < u.length → u.getD k 0 * v.getD l 0 = u.getD l 0 * v.getD k 0

instance (u v : List Nat) : Decidable (minorsVanish u v) := by
  unfold minorsVanish
  infer_instance

theorem dotQ_map_self (f : String → ℚ) (L : List String) :
    dotQ (L.map f) (L.map f) = (L.map (fun t => f t * f t)).sum := by
  induction L with
  | nil => rfl
  | cons t L ih => simp [dotQ] at ih ⊢; linarith

theorem tfidf_length (idf : String → ℚ) (vocab : List String) (doc : String) :
    (tfidfVec idf vocab doc).length = vocab.length := by
  simp [tfidfVec]

theorem countsVec_length (vocab : List String) (doc : String) :
    (countsVec vocab doc).length = vocab.length := by
  simp [countsVec]

theorem dotQ_tfidf_self_pos (idf : String → ℚ) (hidf : ∀ t, 0 < idf t)
    (vocab : List String) (doc : String) (t0 : String)
    (ht : t0 ∈ vocab) (hc : t0 ∈ pyTokenize doc) :
    0 < dotQ (tfidfVec idf vocab doc) (tfidfVec idf vocab doc) := by
  rw [tfidfVec, dotQ_map_self]
  have hterm : 0 < ((countTok doc t0 : ℚ) * idf t0) * ((countTok doc t0 : ℚ) * idf t0) := by
    have hcount : 0 < countTok doc t0 := List.count_pos_iff.mpr hc
    have h1 : (0 : ℚ) < (countTok doc t0 : ℚ) := by exact_mod_cast hcount
    have h2 := hidf t0
    positivity
  have hmem : ((countTok doc t0 : ℚ) * idf t0) * ((countTok doc t0 : ℚ) * idf t0)
      ∈ vocab.map (fun t => ((countTok doc t : ℚ) * idf t) * ((countTok doc t : ℚ) * idf t)) :=
    List.mem_map_of_mem _ ht
  have hle := List.single_le_sum (l := vocab.map
      (fun t => ((countTok doc t : ℚ) * idf t) * ((countTok doc t : ℚ) * idf t))) ?_ _ hmem
  · exact lt_of_lt_of_le hterm hle
  · intro x hx
    rw [List.mem_map] at hx
    obtain ⟨t, _, rfl⟩ := hx
    exact mul_self_nonneg _

theorem tfidf_getD (idf : String → ℚ) (vocab : List String) (doc : String)
    (k : ℕ) (hk : k < vocab.length) :
    (tfidfVec idf vocab doc).getD k 0 = (countTok doc vocab[k] : ℚ) * idf vocab[k] := by
  rw [tfidfVec, List.getD_eq_getElem _ _ (by simpa using hk), List.getElem_map]

theorem countsVec_getD (vocab : List String) (doc : String)
    (k : ℕ) (hk : k < vocab.length) :
    (countsVec vocab doc).getD k 0 = countTok doc vocab[k] := by
  rw [countsVec, List.getD_eq_getElem _ _ (by simpa using hk), List.getElem_map]

theorem tfidf_minor_ne (idf : String → ℚ) (hidf : ∀ t, 0 < idf t)
    (vocab : List String) (d1 d2 : String) (k l : ℕ)
    (hk : k < vocab.length) (hl : l < vocab.length)
    (hne : (countsVec vocab d1).getD k 0 * (countsVec vocab d2).getD l 0
         ≠ (countsVec vocab d1).getD l 0 * (countsVec vocab d2).getD k 0) :
    (tfidfVec idf vocab d1).getD k 0 * (tfidfVec idf vocab d2).getD l 0
      ≠ (tfidfVec idf vocab d1).getD l 0 * (tfidfVec idf vocab d2).getD k 0 := by
  rw [tfidf_getD idf vocab d1 k hk, tfidf_getD idf vocab d2 l hl,
    tfidf_getD idf vocab d1 l hl, tfidf_getD idf vocab d2 k hk]
  rw [countsVec_getD vocab d1 k hk, countsVec_getD vocab d2 l hl,
    countsVec_getD vocab d1 l hl, countsVec_getD vocab d2 k hk] at hne
  intro heq
  apply hne
  have hik := hidf vocab[k]
  have hil := hidf vocab[l]
  have hq : (countTok d1 vocab[k] : ℚ) * countTok d2 vocab[l]
      = (countTok d1 vocab[l] : ℚ) * countTok d2 vocab[k] := by
    have hprod : idf vocab[k] * idf vocab[l] ≠ 0 := by positivity
    apply mul_left_cancel₀ hprod
    ring_nf
    ring_nf at heq
    linarith
  exact_mod_cast hq

/-! ## Claim C4: the self-match property of `answer_question` -/

/-- C4 (amended): for every knowledge base built from a non-empty list of
text units (any positive idf weights) and every question identical to the
text of unit `i`, `answer_question` with `top_k=1` returns that exact
unit's text, provided the unit has at least one vocabulary token (its
tf-idf vector is nonzero) and no other unit's token-count vector is
proportional to unit `i`'s (some 2×2 minor of the two count vectors is
nonzero).  Without those provisos exact similarity ties can make the
selection fall on another unit. -/
theorem answer_question_self_match
    (idf : String → ℚ) (hidf : ∀ t, 0 < idf t)
    (units : List String) (i : ℕ) (hi : i < units.length)
    (htok : pyTokenize units[i] ≠ [])
    (hnp : ∀ j, (hj : j < units.length) → j ≠ i →
      ¬ minorsVanish (countsVec (vocabOf units) units[j])
                     (countsVec (vocabOf units) units[i])) :
    answer_question idf units[i] units
      = "\n📌 Most Relevant Answer:\n" ++ units[i] := by
  set vocab := vocabOf units with hvocab
  set q : String := units[i] with hq
  set qv : List ℚ := tfidfVec idf vocab q with hqv
  set sims : List ℚ := simsList idf units q with hsims
  -- the query vector is nonzero
  obtain ⟨t0, ht0⟩ := List.exists_mem_of_ne_nil _ htok
  have ht0v : t0 ∈ vocab := by
    rw [hvocab, vocabOf, List.mem_dedup]
    exact List.mem_flatMap.mpr ⟨q, List.getElem_mem hi, ht0⟩
  have hqpos : 0 < dotQ qv qv :=
    dotQ_tfidf_self_pos idf hidf vocab q t0 ht0v ht0
  have hqne : dotQ qv qv ≠ 0 := ne_of_gt hqpos
  -- sims entries
  have hsimslen : sims.length = units.length := by
    rw [hsims, simsList]
    simp
  have hgetD : ∀ j, (hj : j < units.length) →
      sims.getD j 0 = simSq qv (tfidfVec idf vocab units[j]) := by
    intro j hj
    rw [hsims, simsList]
    rw [List.getD_eq_getElem _ _ (by simpa using hj), List.getElem_map]
  have hsimi : sims.getD i 0 = 1 := by
    rw [hgetD i hi]
    exact simSq_self qv hqne
  have hsimj : ∀ j, (hj : j < units.length) → j ≠ i → sims.getD j 0 < 1 := by
    intro j hj hji
    rw [hgetD j hj]
    refine simSq_lt_one qv (tfidfVec idf vocab units[j]) hqne ?_ ?_
    · rw [hqv, tfidf_length, tfidf_length]
    · -- extract a nonzero minor from the count vectors
      have hnpj := hnp j hj hji
      rw [minorsVanish] at hnpj
      push_neg at hnpj
      obtain ⟨k, hk, l, hl, hne⟩ := hnpj
      have hklen : k < vocab.length := by
        rw [← countsVec_length vocab units[j]]
        exact hk
      have hllen : l < vocab.length := by
        rw [← countsVec_length vocab units[j]]
        exact hl
      -- counts minor for (d1 := units[i], d2 := units[j]) at indices (l, k)
      have hne' : (countsVec vocab units[i]).getD l 0 * (countsVec vocab units[j]).getD k 0
          ≠ (countsVec vocab units[i]).getD k 0 * (countsVec vocab units[j]).getD l 0 := by
        intro h
        apply hne
        calc (countsVec vocab units[j]).getD k 0 * (countsVec vocab units[i]).getD l 0
            = (countsVec vocab units[i]).getD l 0 * (countsVec vocab units[j]).getD k 0 := by
              ring
          _ = (countsVec vocab units[i]).getD k 0 * (countsVec vocab units[j]).getD l 0 := h
          _ = (countsVec vocab units[j]).getD l 0 * (countsVec vocab units[i]).getD k 0 := by
              ring
      refine ⟨l, k, ?_, ?_, ?_⟩
      · rw [hqv, tfidf_length]; exact hllen
      · rw [hqv, tfidf_length]; exact hklen
      · exact tfidf_minor_ne idf hidf vocab units[i] units[j] l k hllen hklen hne'
  -- the argmax is i
  have hargmax : lastArgmax sims = i := by
    refine lastArgmax_unique_max sims i (by omega) ?_
    intro j hj hji
    rw [hsimi]
    exact hsimj j (by omega) hji
  rw [answer_question]
  rw [← hsims, hargmax]
  rw [List.getD_eq_getElem _ _ hi]

theorem answer_question_self_match_witness :
    answer_question (fun _ => 1) "hello world" ["hello world", "goodbye moon"]
      = "\n📌 Most Relevant Answer:\n" ++ "hello world" :=
  answer_question_self_match (fun _ => 1) (fun _ => one_pos)
    ["hello world", "goodbye moon"] 0 (by decide) (by decide) (by decide)

/-- The counterexample below does not depend on the idf weight: for any
positive weight of the sole term `ab`, both similarities are exactly 1
and the descending argsort selects the last index.  (For this corpus
sklearn's smoothed idf is `ln((1+2)/(1+2)) + 1 = 1` exactly, so the
floating-point computation is exact as well.) -/
theorem self_match_counterexample_any_idf (idf : String → ℚ) (hidf : 0 < idf "ab") :
    answer_question idf "ab" ["ab", "ab ab"]
      = "\n📌 Most Relevant Answer:\n" ++ "ab ab" := by
  have hx : idf "ab" ≠ 0 := ne_of_gt hidf
  have hvoc : vocabOf ["ab", "ab ab"] = ["ab"] := by decide
  have ht1 : tfidfVec idf ["ab"] "ab" = [idf "ab"] := by
    have : countTok "ab" "ab" = 1 := by decide
    simp [tfidfVec, this]
  have ht2 : tfidfVec idf ["ab"] "ab ab" = [2 * idf "ab"] := by
    have : countTok "ab ab" "ab" = 2 := by decide
    simp [tfidfVec, this]
  have hd1 : dotQ [idf "ab"] [idf "ab"] = idf "ab" * idf "ab" := by
    simp [dotQ]
  have hs1 : simSq [idf "ab"] [idf "ab"] = 1 := by
    refine simSq_self _ ?_
    rw [hd1]
    positivity
  have hs2 : simSq [idf "ab"] [2 * idf "ab"] = 1 := by
    rw [simSq]
    rw [if_neg ?_]
    · simp only [dotQ, List.zipWith_cons_cons, List.zipWith_nil_right,
        List.sum_cons, List.sum_nil]
      field_simp
      ring
    · simp only [dotQ, List.zipWith_cons_cons, List.zipWith_nil_right,
        List.sum_cons, List.sum_nil]
      push_neg
      constructor <;> positivity
  have hsims : simsList idf ["ab", "ab ab"] "ab" = [1, 1] := by
    rw [simsList, hvoc]
    simp only [List.map_cons, List.map_nil, ht1, ht2, hs1, hs2]
  rw [answer_question, hsims]
  have hlam : lastArgmax [(1 : ℚ), 1] = 1 := by
    rw [lastArgmax, lastArgmaxAux, if_pos le_rfl]
    rfl
  rw [hlam]
  rfl

/-- C4 counterexample: in the knowledge base `["ab", "ab ab"]` the
question `"ab"` is exactly unit 0's text, yet `answer_question` returns
unit 1's text `"ab ab"`: the two tf-idf vectors are proportional, both
cosine similarities equal 1 exactly, and `sims.argsort()[::-1][0]` picks
the tied index 1. -/
theorem self_match_counterexample :
    ("ab" : String) = (["ab", "ab ab"] : List String).getD 0 "" ∧
    answer_question (fun _ => 1) "ab" ["ab", "ab ab"]
      = "\n📌 Most Relevant Answer:\n" ++ "ab ab" ∧
    ("ab ab" : String) ≠ "ab" :=
  ⟨by decide, self_match_counterexample_any_idf (fun _ => 1) one_pos, by decide⟩
